import Mathlib

/-!
Verification of the chaos data downloader.

Shallow embedding of the Go program (`chaos.go` and its extended CLI
variant): a command-line tool that fetches a JSON index of named
datasets, selectively downloads each dataset's ZIP archive into
`./AllChaosData/<name>/`, and concatenates every `.txt` file found under
the base directory into `./everything.txt`.

Pure string and path manipulation (Go's `strings.Split`,
`strings.TrimSpace`, `strings.ToLower`, `bufio.Scanner` line splitting,
`filepath.Join`/`Dir` cleaning) is translated directly.  Network and
filesystem effects are modelled by explicit state passing over a
filesystem model (a set of directories plus an association list of
files) together with outcome oracles standing for the environment
(HTTP responses, temp-file creation, write failures).
-/

namespace Chaos

/-! ## Go string primitives -/

/-- Whitespace predicate used by Go's `strings.TrimSpace`
(`unicode.IsSpace`), restricted to the ASCII/Latin-1 space characters. -/
def goIsSpace (c : Char) : Bool :=
  c = ' ' || c = '\t' || c = '\n' || c = '\x0b' || c = '\x0c' || c = '\r' ||
  c = '\u0085' || c = ' '

/-- Character-level splitting on a separator, with the semantics of Go's
`strings.Split`: the empty input yields one empty piece, and `n`
separators yield `n+1` pieces. -/
def splitChars (sep : Char) : List Char → List String
  | [] => [""]
  | c :: cs =>
    match splitChars sep cs with
    | [] => if c = sep then ["", ""] else [String.mk [c]]
    | s :: ss =>
      if c = sep then "" :: s :: ss else String.mk (c :: s.data) :: ss

/-- Go's `strings.Split` on a single-character separator. -/
def goSplit (s : String) (sep : Char) : List String :=
  splitChars sep s.data

/-- Go's `strings.TrimSpace`: drop leading and trailing whitespace. -/
def goTrimSpace (s : String) : String :=
  String.mk (((s.data.dropWhile goIsSpace).reverse.dropWhile goIsSpace).reverse)

/-- ASCII lowercasing of one character, as applied by `strings.ToLower`
to ASCII input. -/
def asciiLower (c : Char) : Char :=
  if 'A' ≤ c ∧ c ≤ 'Z' then Char.ofNat (c.toNat + 32) else c

/-- Go's `strings.ToLower` (ASCII fragment). -/
def goToLower (s : String) : String :=
  String.mk (s.data.map asciiLower)

/-- Go's `strings.HasSuffix`. -/
def goHasSuffix (s suffix : String) : Bool :=
  suffix.data.isSuffixOf s.data

/-- Line splitting with the semantics of `bufio.Scanner` over
`bufio.ScanLines`: split at `'\n'`, drop a final empty piece produced by
a trailing newline, and strip one trailing `'\r'` from each line. -/
def goScanLines (s : String) : List String :=
  let ls := goSplit s '\n'
  (if ls.getLast? = some "" then ls.dropLast else ls).map
    (fun l => if l.data.getLast? = some '\r' then String.mk l.data.dropLast else l)

/-! ## Path cleaning (`path/filepath`)

`filepath.Join` concatenates its arguments with `/` and runs the result
through `filepath.Clean`.  For the relative slash-separated paths this
program builds, `Clean` is exactly the textbook segment-stack
computation below: empty and `.` segments are dropped, and `..` pops the
previous segment unless the stack is empty or already ends in `..`
(a relative path may keep leading `..` segments). -/

/-- One step of `filepath.Clean`'s segment processing. -/
def cleanStep (acc : List String) (seg : String) : List String :=
  if seg = "" ∨ seg = "." then acc
  else if seg = ".." then
    if acc = [] ∨ acc.getLast? = some ".." then acc ++ [".."] else acc.dropLast
  else acc ++ [seg]

/-- Cleaned segment list of a relative path. -/
def cleanSegs (l : List String) : List String :=
  l.foldl cleanStep []

/-- Characters of `String.intercalate "/"`. -/
def interSegs : List String → List Char
  | [] => []
  | [s] => s.data
  | s :: ss => s.data ++ '/' :: interSegs ss

/-- Render a cleaned segment list back to a path string; the empty list
renders as `"."`, as in `filepath.Clean`. -/
def renderSegs (l : List String) : String :=
  if l = [] then "." else String.mk (interSegs l)

/-- Cleaned segments of a path string. -/
def pathSegs (p : String) : List String :=
  cleanSegs (goSplit p '/')

/-- Go's `filepath.Join` of two relative paths. -/
def goJoin (a b : String) : String :=
  renderSegs (cleanSegs (goSplit a '/' ++ goSplit b '/'))

/-- Go's `filepath.Dir` of a cleaned relative path. -/
def goDir (p : String) : String :=
  renderSegs (pathSegs p).dropLast

/-! ## Selector (`parseCompanyNames`, `readCompanyList`) -/

/-- Loop body shared by `parseCompanyNames` and `readCompanyList`: trim
the token, skip it when empty, otherwise insert its lowercase form. -/
def addCompany (acc : Finset String) (name : String) : Finset String :=
  let trimmed := goTrimSpace name
  if trimmed = "" then acc else insert (goToLower trimmed) acc

/-- Embedding of `parseCompanyNames`: split the input on commas, trim
each token, drop empties, lowercase, and collect into a set. -/
def parseCompanyNames (input : String) : Finset String :=
  (goSplit input ',').foldl addCompany ∅

/-- Embedding of `readCompanyList`, applied to the file content (the
file is given as a string; `bufio.Scanner` yields its lines): trim each
line, drop blanks, lowercase, collect into a set. -/
def readCompanyList (content : String) : Finset String :=
  (goScanLines content).foldl addCompany ∅

/-- Set described by the specification's words for the Selector: the
lowercased, whitespace-trimmed, non-empty tokens, duplicates
collapsed. -/
def selectorSpecSet (tokens : List String) : Finset String :=
  (((tokens.map goTrimSpace).filter (fun t => t ≠ "")).map goToLower).toFinset

theorem foldl_addCompany (l : List String) (acc : Finset String) :
    l.foldl addCompany acc = acc ∪ selectorSpecSet l := by
  induction l generalizing acc with
  | nil => simp [selectorSpecSet]
  | cons n l ih =>
    rw [List.foldl_cons, ih]
    unfold addCompany selectorSpecSet
    by_cases h : goTrimSpace n = "" <;>
      simp [h, Finset.union_insert, Finset.insert_union]

example : parseCompanyNames "Tesla, Google,,  Microsoft" =
    ({"tesla", "google", "microsoft"} : Finset String) := by decide

example : readCompanyList "Tesla\n\n  google  \n" =
    ({"tesla", "google"} : Finset String) := by decide

/-- C2: For every comma-separated input string, the Selector produces
exactly the set of its lowercased, whitespace-trimmed, non-empty tokens
(duplicates collapsed), and for every name-list file, exactly the set of
its lowercased, trimmed, non-blank lines. -/
theorem selector_produces_spec_set :
    (∀ input : String,
      parseCompanyNames input = selectorSpecSet (goSplit input ',')) ∧
    (∀ content : String,
      readCompanyList content = selectorSpecSet (goScanLines content)) := by
  refine ⟨fun input => ?_, fun content => ?_⟩ <;>
    simp [parseCompanyNames, readCompanyList, foldl_addCompany]

/-! ## Filesystem model

Directories and regular files reached by the program, identified by
their cleaned path segments.  Files carry their content and permission
bits.  `addDir` is `os.MkdirAll` on a single path component (a no-op
when the directory exists); `mkdirAllSegs` creates a path and all its
ancestors; `setFile` is `os.OpenFile(…, O_WRONLY|O_CREATE|O_TRUNC,
mode)` followed by writing the full content: it creates the file or
truncates and overwrites a pre-existing one. -/

structure FS where
  dirs : List (List String)
  files : List (List String × String × Nat)
deriving DecidableEq

def emptyFS : FS := ⟨[], []⟩

def FS.addDir (fs : FS) (d : List String) : FS :=
  if d ∈ fs.dirs then fs else { fs with dirs := d :: fs.dirs }

/-- All non-empty prefixes of a segment list, shortest first. -/
def prefixesOf (l : List String) : List (List String) :=
  (List.range l.length).map (fun i => l.take (i + 1))

def FS.mkdirAllSegs (fs : FS) (l : List String) : FS :=
  (prefixesOf l).foldl FS.addDir fs

/-- The file-store effect of `os.OpenFile(p, O_WRONLY|O_CREATE|O_TRUNC,
perm)` followed by writing `content`: a pre-existing file is truncated
and rewritten but keeps its old permission bits (the `perm` argument of
`open(2)` applies only at creation); a fresh file is created with
`perm`. -/
def assocWrite (l : List (List String × String × Nat)) (k : List String)
    (content : String) (mode : Nat) : List (List String × String × Nat) :=
  match l with
  | [] => [(k, content, mode)]
  | (k', v') :: rest =>
    if k' = k then (k, content, v'.2) :: rest
    else (k', v') :: assocWrite rest k content mode

def assocGet (l : List (List String × String × Nat)) (k : List String) :
    Option (String × Nat) :=
  match l with
  | [] => none
  | (k', v') :: rest => if k' = k then some v' else assocGet rest k

/-- The permission bits a file at key `k` carries after a truncating
open-and-write with creation mode `m`: its old bits when it pre-existed,
`m` when it was created by this write. -/
def writtenMode (l : List (List String × String × Nat)) (k : List String)
    (m : Nat) : Nat :=
  match assocGet l k with
  | none => m
  | some v => v.2

def FS.setFile (fs : FS) (p : List String) (content : String) (mode : Nat) : FS :=
  { fs with files := assocWrite fs.files p content mode }

def FS.lookupFile (fs : FS) (p : String) : Option (String × Nat) :=
  assocGet fs.files (pathSegs p)

/-! ## Archive extraction (`unzipFile`) -/

/-- One entry of a ZIP archive: its declared name (a relative
slash-separated path), whether it is a directory, its decompressed
content, and its declared permission bits (`f.Mode()`). -/
structure ZipEntry where
  name : String
  isDir : Bool
  content : String
  mode : Nat
deriving DecidableEq

/-- Environment outcome for processing one archive entry: each failure
constructor stands for one of the fallible calls inside the loop body of
`unzipFile` (`os.MkdirAll` on the parent, `os.OpenFile`, `f.Open()`,
`io.Copy`). -/
inductive EntryOutcome where
  | ok
  | mkdirFail
  | openFail
  | zipOpenFail
  | copyFail
deriving DecidableEq

/-- The outcome oracle describing an environment with no failures. -/
def allOk : ZipEntry → EntryOutcome := fun _ => .ok

/-- Loop body of `unzipFile` for one archive entry.  `fpath :=
filepath.Join(destDir, f.Name)`.  A directory entry is `os.MkdirAll`ed
with its error ignored.  For a file entry the parent directories are
created, then the file is opened with `O_WRONLY|O_CREATE|O_TRUNC` and
the entry's mode and the decompressed bytes are copied into it; the
first failing call makes the entry's processing return an error.  A
failure of `f.Open()` or `io.Copy` happens after the successful
truncating open, so the destination file exists; its (partial) content
is abstracted as empty. -/
def unzipEntry (wo : ZipEntry → EntryOutcome) (destDir : String) (fs : FS)
    (f : ZipEntry) : FS × Option String :=
  let segs := pathSegs (goJoin destDir f.name)
  if f.isDir then
    match wo f with
    | .mkdirFail => (fs, none)
    | _ => (fs.mkdirAllSegs segs, none)
  else
    match wo f with
    | .mkdirFail => (fs, some "error creating parent directory")
    | .openFail => (fs.mkdirAllSegs segs.dropLast, some "error opening output file")
    | .zipOpenFail =>
      ((fs.mkdirAllSegs segs.dropLast).setFile segs "" f.mode,
        some "error opening zip content")
    | .copyFail =>
      ((fs.mkdirAllSegs segs.dropLast).setFile segs "" f.mode,
        some "error writing to output file")
    | .ok =>
      ((fs.mkdirAllSegs segs.dropLast).setFile segs f.content f.mode, none)

/-- The entry loop of `unzipFile`: process entries in order; the first
entry returning an error ends the loop with that error. -/
def unzipEntries (wo : ZipEntry → EntryOutcome) (destDir : String) :
    List ZipEntry → FS → FS × Option String
  | [], fs => (fs, none)
  | f :: rest, fs =>
    match unzipEntry wo destDir fs f with
    | (fs1, some e) => (fs1, some e)
    | (fs1, none) => unzipEntries wo destDir rest fs1

/-- Embedding of `unzipFile`: `zip.OpenReader` either fails (`arch =
none`) or yields the archive's entries, which are then extracted in
order under `destDir`. -/
def unzipFile (arch : Option (List ZipEntry)) (wo : ZipEntry → EntryOutcome)
    (destDir : String) (fs : FS) : FS × Option String :=
  match arch with
  | none => (fs, some "error opening zip file")
  | some entries => unzipEntries wo destDir entries fs

/-! ## Item processor (`downloadAndUnzip`, `processURLs`) -/

/-- Environment for one `downloadAndUnzip` call: whether `http.Get`,
`os.CreateTemp`, the `io.Copy` into the temp file, and the `os.MkdirAll`
of the entry directory succeed, plus the archive obtained by
`zip.OpenReader` on the downloaded temp file and the per-entry
extraction outcomes. -/
structure DLEnv where
  getOk : Bool
  tempOk : Bool
  copyOk : Bool
  mkdirOk : Bool
  arch : Option (List ZipEntry)
  wo : ZipEntry → EntryOutcome

/-- Result of one `downloadAndUnzip` call: the filesystem afterwards,
the returned error, and whether the scoped temporary archive file was
created and whether the deferred `os.Remove` ran on it. -/
structure DLResult where
  fs : FS
  err : Option String
  tempCreated : Bool
  tempRemoved : Bool

/-- Embedding of `downloadAndUnzip`: GET the URL, persist the body to a
temp file (removed by `defer` on every later exit path), create
`<base>/<name>`, and extract the archive into it. -/
def downloadAndUnzip (env : DLEnv) (name baseDir : String) (fs : FS) : DLResult :=
  if !env.getOk then ⟨fs, some "error downloading", false, false⟩
  else if !env.tempOk then ⟨fs, some "error creating temp file", false, false⟩
  else if !env.copyOk then ⟨fs, some "error writing to temp file", true, true⟩
  else if !env.mkdirOk then ⟨fs, some "error creating directory", true, true⟩
  else
    let dirPath := goJoin baseDir name
    let fs1 := fs.mkdirAllSegs (pathSegs dirPath)
    match unzipFile env.arch env.wo dirPath fs1 with
    | (fs2, some e) => ⟨fs2, some ("error unzipping file: " ++ e), true, true⟩
    | (fs2, none) => ⟨fs2, none, true, true⟩

/-- One index entry decoded from the remote JSON index. -/
structure IndexEntry where
  name : String
  url : String

/-- The filter test in `processURLs`: with a `nil` filter set every
entry passes; otherwise the entry's lowercased name must be a member. -/
def entrySelected (filterSet : Option (Finset String)) (e : IndexEntry) : Bool :=
  match filterSet with
  | none => true
  | some s => decide (goToLower e.name ∈ s)

/-- `baseDir` as computed in `main`: `filepath.Join(".", "AllChaosData")`. -/
def baseDir : String := goJoin "." "AllChaosData"

/-- Observable state of the `processURLs` loop: the filesystem, the
entries announced with `Processing <name>...`, the completed counter,
and the per-entry failure log lines. -/
structure ProcState where
  fs : FS
  attempted : List String
  completed : Nat
  failed : List String

/-- Loop body of `processURLs` for one index entry: skip it when the
filter excludes it; otherwise announce it, download and extract it, and
either log the failure or bump the completed counter. -/
def procStep (filterSet : Option (Finset String)) (env : IndexEntry → DLEnv)
    (st : ProcState) (e : IndexEntry) : ProcState :=
  if entrySelected filterSet e then
    let r := downloadAndUnzip (env e) e.name baseDir st.fs
    match r.err with
    | some m =>
      { st with
          fs := r.fs
          attempted := st.attempted ++ [e.name]
          failed := st.failed ++ [e.name ++ ": " ++ m] }
    | none =>
      { st with
          fs := r.fs
          attempted := st.attempted ++ [e.name]
          completed := st.completed + 1 }
  else st

/-- Embedding of the entry loop of `processURLs` (the index has already
been fetched and decoded into `entries`; a fetch or decode failure is a
fatal error before this loop).  Entries excluded by the filter are
skipped; each selected entry is announced and then downloaded and
extracted, a failure being logged while the loop continues. -/
def processURLs (entries : List IndexEntry) (filterSet : Option (Finset String))
    (env : IndexEntry → DLEnv) (fs : FS) : ProcState :=
  entries.foldl (procStep filterSet env) ⟨fs, [], 0, []⟩

/-! ## Concatenator (`findAllTxtFiles`, `concatenateAllTxtFiles`)

`filepath.Walk` produces a sequence of visits in lexical order; each
visit either carries the file info for a path or an error (for example
an unreadable directory).  The walk callback in `findAllTxtFiles`
returns any incoming error, which makes `filepath.Walk` stop and return
it — and `findAllTxtFiles` discards `Walk`'s return value, keeping only
the files collected so far. -/

/-- File info delivered to the walk callback for one visited path. -/
structure VisitInfo where
  path : String
  name : String
  isDir : Bool
  content : String
deriving DecidableEq

/-- One event of a `filepath.Walk` traversal: a visited path's info, or
a walk error. -/
def WalkEvent := Except String VisitInfo

/-- The walk underlying `findAllTxtFiles`: collect paths of non-directory
entries whose name ends in `.txt`, stopping at the first walk error
(which the callback returns to `Walk`); the second component is `Walk`'s
return value. -/
def findAllTxtFilesAux : List WalkEvent → List String × Option String
  | [] => ([], none)
  | Except.error m :: _ => ([], some m)
  | Except.ok info :: rest =>
    let r := findAllTxtFilesAux rest
    (if !info.isDir && goHasSuffix info.name ".txt" then info.path :: r.1 else r.1,
      r.2)

/-- Embedding of `findAllTxtFiles`: the collected file list, with the
walk's error discarded. -/
def findAllTxtFiles (events : List WalkEvent) : List String :=
  (findAllTxtFilesAux events).1

/-- Outcome of reading one source file during concatenation: `os.Open`
succeeding and `io.Copy` copying the full content; `os.Open` failing; or
`io.Copy` failing after copying a prefix of the content. -/
inductive ReadOutcome where
  | ok (content : String)
  | openFail
  | copyFail (copied : String)

/-- What one source file contributes to the combined output file: its
full content plus the newline separator on success, nothing when the
open fails, and the partially copied bytes (without separator) when the
copy fails. -/
def contribOf : ReadOutcome → String
  | .ok c => c ++ "\n"
  | .openFail => ""
  | .copyFail copied => copied

/-- Embedding of `concatenateAllTxtFiles`: enumerate the `.txt` files,
create/truncate the combined output file, and for each file in traversal
order copy its bytes followed by a newline, a failed open or copy being
logged and skipped. -/
def concatenateAllTxtFiles (events : List WalkEvent)
    (read : String → ReadOutcome) : String :=
  (findAllTxtFiles events).foldl
    (fun acc p =>
      match read p with
      | .ok c => acc ++ c ++ "\n"
      | .openFail => acc
      | .copyFail copied => acc ++ copied)
    ""

/-! An in-memory output tree, for the claims that speak about the
contents of `./AllChaosData`.  `filepath.Walk` visits the root, then
each directory's children in lexical order; children lists below are
kept in that order. -/

mutual
/-- Node of the output tree: a file with content, or a directory with
named children (in lexical order). -/
inductive FsNode where
  | file (content : String)
  | dir (children : FsChildren)

/-- Children of a directory node. -/
inductive FsChildren where
  | nil
  | cons (name : String) (child : FsNode) (rest : FsChildren)
end

mutual
/-- Visit sequence of `filepath.Walk` over an in-memory tree: the node
itself, then (for directories) every child in order. -/
def treeVisits (path name : String) : FsNode → List VisitInfo
  | .file c => [⟨path, name, false, c⟩]
  | .dir cs => ⟨path, name, true, ""⟩ :: childVisits path cs

/-- Visit sequences of a directory's children, concatenated in order. -/
def childVisits (path : String) : FsChildren → List VisitInfo
  | .nil => []
  | .cons n t rest => treeVisits (goJoin path n) n t ++ childVisits path rest
end

/-- Walk events of an in-memory tree (no walk errors occur on it). -/
def treeEvents (path name : String) (t : FsNode) : List WalkEvent :=
  (treeVisits path name t).map Except.ok

/-- Path-to-content table of the tree's regular files. -/
def treeFilesOf (path name : String) (t : FsNode) : List (String × String) :=
  (treeVisits path name t).filterMap
    (fun i => if i.isDir then none else some (i.path, i.content))

/-- Reading a path out of a file table: the content when present, a
failed open otherwise. -/
def tableRead (table : List (String × String)) (p : String) : ReadOutcome :=
  match table.lookup p with
  | some c => .ok c
  | none => .openFail

/-! ## Main's selection of the company set -/

/-- What `main` decides to do about the Selection Set. -/
inductive MainSelection where
  | usage
  | fatal (msg : String)
  | run (filterSet : Option (Finset String))

/-- Embedding of the selection logic in `main`: show usage when `-h` is
given or no selection option is; otherwise `-c` wins, else `-i` (whose
read failure is fatal), else `-a` leaves the filter set `nil`.  The
second component records whether the name-list file was opened. -/
def mainSelection (help : Bool) (inputFile companies : String) (all : Bool)
    (readFile : String → Except String String) : MainSelection × Bool :=
  if help || (inputFile == "" && companies == "" && !all) then (.usage, false)
  else if companies != "" then (.run (some (parseCompanyNames companies)), false)
  else if inputFile != "" then
    match readFile inputFile with
    | .ok content => (.run (some (readCompanyList content)), true)
    | .error m => (.fatal m, true)
  else (.run none, false)

/-! ## Helper lemmas -/

theorem strJoin_nil : String.join ([] : List String) = "" := rfl

theorem strJoin_cons (s : String) (l : List String) :
    String.join (s :: l) = s ++ String.join l := by
  apply String.ext
  simp [String.join_eq, String.data_append]

/-- The attempted list of the `processURLs` loop is exactly the filtered
entry names, for every outcome environment and every starting state. -/
theorem foldl_procStep_attempted (fl : Option (Finset String))
    (env : IndexEntry → DLEnv) (entries : List IndexEntry) :
    ∀ st : ProcState,
      (entries.foldl (procStep fl env) st).attempted
        = st.attempted ++ (entries.filter (entrySelected fl)).map IndexEntry.name := by
  induction entries with
  | nil => intro st; simp
  | cons e rest ih =>
    intro st
    rw [List.foldl_cons, ih]
    by_cases h : entrySelected fl e
    · simp only [procStep, h, if_true, List.filter_cons_of_pos]
      cases hm : (downloadAndUnzip (env e) e.name baseDir st.fs).err <;>
        simp [hm, List.append_assoc]
    · simp [procStep, h, List.filter_cons_of_neg]

/-- The concatenation loop appends each file's contribution in order,
independently of the outcomes on the other files. -/
theorem foldl_concat_contrib (read : String → ReadOutcome) (l : List String) :
    ∀ acc : String,
      (l.foldl
        (fun a p =>
          match read p with
          | .ok c => a ++ c ++ "\n"
          | .openFail => a
          | .copyFail copied => a ++ copied)
        acc)
        = acc ++ String.join (l.map (fun p => contribOf (read p))) := by
  induction l with
  | nil => intro acc; simp [strJoin_nil]
  | cons p rest ih =>
    intro acc
    rw [List.foldl_cons, ih, List.map_cons, strJoin_cons]
    cases hr : read p <;>
      simp [contribOf, hr, String.append_assoc, String.append_empty]

/-! ## C1: per-entry and per-file failure isolation -/

/-- C1: a recoverable failure is logged and skipped without stopping the
run: whatever the download/extraction outcomes, the entry loop announces
and processes exactly the filtered entries, and whatever the read/copy
outcomes, the concatenation loop gives every discovered file its
contribution to the combined output, in order. -/
theorem recoverable_failures_never_abort :
    (∀ (entries : List IndexEntry) (fl : Option (Finset String))
        (env : IndexEntry → DLEnv) (fs : FS),
      (processURLs entries fl env fs).attempted
        = (entries.filter (entrySelected fl)).map IndexEntry.name) ∧
    (∀ (events : List WalkEvent) (read : String → ReadOutcome),
      concatenateAllTxtFiles events read
        = String.join ((findAllTxtFiles events).map (fun p => contribOf (read p)))) := by
  constructor
  · intro entries fl env fs
    rw [processURLs, foldl_procStep_attempted]
    rfl
  · intro events read
    rw [concatenateAllTxtFiles, foldl_concat_contrib, String.empty_append]

/-! ## C5: the temporary archive file never survives the call -/

/-- C5: on every exit path of `downloadAndUnzip` — success, partial
write, or extraction failure — the scoped temporary file is removed
exactly when it was created, so it never survives the call. -/
theorem temp_file_never_survives
    (env : DLEnv) (name base : String) (fs : FS) :
    (downloadAndUnzip env name base fs).tempRemoved
      = (downloadAndUnzip env name base fs).tempCreated := by
  unfold downloadAndUnzip
  split; · rfl
  split; · rfl
  split; · rfl
  split; · rfl
  dsimp only
  split <;> rfl

/-! ## C9: a walk error silently truncates the enumeration -/

/-- The `.txt` files among a list of visits, in visit order. -/
def txtPaths (l : List VisitInfo) : List String :=
  (l.filter (fun i => !i.isDir && goHasSuffix i.name ".txt")).map VisitInfo.path

theorem findAux_ok_prefix (l : List VisitInfo) :
    findAllTxtFilesAux (l.map Except.ok) = (txtPaths l, none) := by
  induction l with
  | nil => rfl
  | cons i rest ih =>
    simp only [List.map_cons, findAllTxtFilesAux, ih, txtPaths, List.filter_cons]
    by_cases h : (!i.isDir && goHasSuffix i.name ".txt") = true <;> simp [txtPaths, h]

theorem findAux_stops_at_error (l : List VisitInfo) (m : String)
    (rest : List WalkEvent) :
    findAllTxtFilesAux (l.map Except.ok ++ Except.error m :: rest)
      = (txtPaths l, some m) := by
  induction l with
  | nil => rfl
  | cons i tl ih =>
    simp only [List.map_cons, List.cons_append, findAllTxtFilesAux, txtPaths,
      List.filter_cons]
    by_cases h : (!i.isDir && goHasSuffix i.name ".txt") = true <;>
      simp [txtPaths, h, ih]

/-- C9: when the directory walk hits an error, enumeration stops there:
only the files discovered before the error are returned, the walk error
is dropped (`findAllTxtFiles` discards `filepath.Walk`'s return value),
and concatenation proceeds silently on the partial list, exactly as if
the tree had ended at the error. -/
theorem walk_error_truncates_enumeration :
    ∀ (good : List VisitInfo) (m : String) (rest : List WalkEvent)
      (read : String → ReadOutcome),
      findAllTxtFilesAux (good.map Except.ok ++ Except.error m :: rest)
          = (txtPaths good, some m) ∧
      findAllTxtFiles (good.map Except.ok ++ Except.error m :: rest)
          = txtPaths good ∧
      concatenateAllTxtFiles (good.map Except.ok ++ Except.error m :: rest) read
          = concatenateAllTxtFiles (good.map Except.ok) read := by
  intro good m rest read
  refine ⟨findAux_stops_at_error good m rest, ?_, ?_⟩ <;>
    simp [findAllTxtFiles, concatenateAllTxtFiles, findAux_stops_at_error,
      findAux_ok_prefix]

/-! ## C8: no destination-boundary check on archive entry paths -/

/-- Whether `p` stays inside the directory `dest` (its cleaned segments
extend the destination's). -/
def underDir (dest p : String) : Bool :=
  (pathSegs dest).isPrefixOf (pathSegs p)

/-- C8: archive extraction performs no destination-boundary check.  For
an archive entry named `../../evil.txt`, extraction into
`AllChaosData/acme` computes the write path `evil.txt`, which lies
outside the destination directory, and writes the entry there without
error. -/
theorem extraction_writes_outside_destination :
    goJoin (goJoin baseDir "acme") "../../evil.txt" = "evil.txt" ∧
    underDir (goJoin baseDir "acme") "evil.txt" = false ∧
    (unzipFile (some [⟨"../../evil.txt", false, "pwn", 420⟩]) allOk
        (goJoin baseDir "acme") emptyFS).2 = none ∧
    (unzipFile (some [⟨"../../evil.txt", false, "pwn", 420⟩]) allOk
        (goJoin baseDir "acme") emptyFS).1.lookupFile "evil.txt"
      = some ("pwn", 420) := by
  refine ⟨by decide, by decide, by decide, by decide⟩

/-! ## C10: precedence among the three selection inputs -/

/-- C10: when both a comma-separated list and a name-list file are
supplied, the comma-separated list alone determines the Selection Set
and the file is never opened (the result is the same for every file
reader, with the file-read flag false); and the `-a` flag has no effect
whenever either of the other two selection inputs is non-empty. -/
theorem comma_list_overrides_file_and_all :
    (∀ (inputFile companies : String) (all : Bool)
        (readFile : String → Except String String),
      companies ≠ "" →
      mainSelection false inputFile companies all readFile
        = (.run (some (parseCompanyNames companies)), false)) ∧
    (∀ (inputFile companies : String) (a1 a2 : Bool)
        (readFile : String → Except String String),
      companies ≠ "" ∨ inputFile ≠ "" →
      mainSelection false inputFile companies a1 readFile
        = mainSelection false inputFile companies a2 readFile) := by
  constructor
  · intro i c a r hc
    simp [mainSelection, hc]
  · intro i c a1 a2 r h
    rcases h with hc | hi
    · simp [mainSelection, hc]
    · by_cases hc : c = ""
      · simp [mainSelection, hc, hi]
      · simp [mainSelection, hc]

/-- Concrete run of `comma_list_overrides_file_and_all`: with `-c
"Tesla,Google"`, `-i names.txt` and `-a` all supplied, the comma list
wins, the file reader is never consulted, and the `-a` flag changes
nothing. -/
theorem comma_list_overrides_file_and_all_witness :
    ("Tesla,Google" ≠ "" ∧
      mainSelection false "names.txt" "Tesla,Google" true (fun _ => .error "io")
        = (.run (some (parseCompanyNames "Tesla,Google")), false)) ∧
    (("Tesla,Google" ≠ "" ∨ "names.txt" ≠ "") ∧
      mainSelection false "names.txt" "Tesla,Google" true (fun _ => .error "io")
        = mainSelection false "names.txt" "Tesla,Google" false (fun _ => .error "io")) :=
  ⟨⟨by decide,
      comma_list_overrides_file_and_all.1 "names.txt" "Tesla,Google" true
        (fun _ => .error "io") (by decide)⟩,
    ⟨Or.inl (by decide),
      comma_list_overrides_file_and_all.2 "names.txt" "Tesla,Google" true false
        (fun _ => .error "io") (Or.inl (by decide))⟩⟩

/-! ## C4: the first failing entry aborts extraction of the archive -/

/-- The error produced by processing one archive entry, as a function of
the outcome oracle alone (directory entries never produce one: their
`os.MkdirAll` error is discarded by the code). -/
def entryErr (wo : ZipEntry → EntryOutcome) (f : ZipEntry) : Option String :=
  if f.isDir then none
  else
    match wo f with
    | .ok => none
    | .mkdirFail => some "error creating parent directory"
    | .openFail => some "error opening output file"
    | .zipOpenFail => some "error opening zip content"
    | .copyFail => some "error writing to output file"

theorem unzipEntry_snd (wo : ZipEntry → EntryOutcome) (d : String) (fs : FS)
    (f : ZipEntry) : (unzipEntry wo d fs f).2 = entryErr wo f := by
  unfold unzipEntry entryErr
  by_cases h : f.isDir <;> cases hw : wo f <;> simp [h, hw]

/-- The error returned by the entry loop: that of the first failing
entry. -/
def unzipEntriesErr (wo : ZipEntry → EntryOutcome) : List ZipEntry → Option String
  | [] => none
  | f :: rest =>
    match entryErr wo f with
    | some m => some m
    | none => unzipEntriesErr wo rest

theorem unzipEntries_snd (wo : ZipEntry → EntryOutcome) (d : String)
    (es : List ZipEntry) : ∀ fs : FS,
    (unzipEntries wo d es fs).2 = unzipEntriesErr wo es := by
  induction es with
  | nil => intro fs; rfl
  | cons f rest ih =>
    intro fs
    have h2 := unzipEntry_snd wo d fs f
    rcases hu : unzipEntry wo d fs f with ⟨fs1, e⟩
    rw [hu] at h2
    cases e with
    | some m => simp [unzipEntries, unzipEntriesErr, hu, ← h2]
    | none => simp [unzipEntries, unzipEntriesErr, hu, ← h2, ih]

/-- The error returned by `unzipFile`, as a function of the archive and
the outcome oracle alone. -/
def unzipErr (arch : Option (List ZipEntry)) (wo : ZipEntry → EntryOutcome) :
    Option String :=
  match arch with
  | none => some "error opening zip file"
  | some es => unzipEntriesErr wo es

theorem unzipFile_snd (arch : Option (List ZipEntry))
    (wo : ZipEntry → EntryOutcome) (d : String) (fs : FS) :
    (unzipFile arch wo d fs).2 = unzipErr arch wo := by
  cases arch with
  | none => rfl
  | some es => simp [unzipFile, unzipErr, unzipEntries_snd]

theorem unzipEntries_drops_tail (wo : ZipEntry → EntryOutcome) (d : String)
    (f : ZipEntry) (post : List ZipEntry) (hf : entryErr wo f ≠ none) :
    ∀ (pre : List ZipEntry) (fs : FS), (∀ g ∈ pre, entryErr wo g = none) →
      unzipEntries wo d (pre ++ f :: post) fs = unzipEntries wo d (pre ++ [f]) fs := by
  intro pre
  induction pre with
  | nil =>
    intro fs _
    have h2 := unzipEntry_snd wo d fs f
    rcases hu : unzipEntry wo d fs f with ⟨fs1, e⟩
    rw [hu] at h2
    cases e with
    | some m => simp [unzipEntries, hu]
    | none => exact absurd h2.symm hf
  | cons g pre ih =>
    intro fs hpre
    have h2 := unzipEntry_snd wo d fs g
    rcases hu : unzipEntry wo d fs g with ⟨fs1, e⟩
    rw [hu] at h2
    have hg : entryErr wo g = none := hpre g (by simp)
    rw [hg] at h2
    subst h2
    simp only [List.cons_append, unzipEntries, hu]
    exact ih fs1 (fun x hx => hpre x (by simp [hx]))

/-- C4: an archive that cannot be opened yields an error; the first
archive entry that cannot be written makes `unzipFile` return an error
and abort extraction of all remaining entries of that archive (deleting
the tail of the archive behind the failing entry changes nothing); and
either error is propagated by `downloadAndUnzip` as that entry's
per-entry failure. -/
theorem first_write_failure_aborts_archive :
    (∀ (wo : ZipEntry → EntryOutcome) (dest : String) (fs : FS),
      unzipFile none wo dest fs = (fs, some "error opening zip file")) ∧
    (∀ (wo : ZipEntry → EntryOutcome) (dest : String) (fs : FS)
        (pre : List ZipEntry) (f : ZipEntry) (post : List ZipEntry),
      (∀ g ∈ pre, entryErr wo g = none) →
      entryErr wo f ≠ none →
      unzipFile (some (pre ++ f :: post)) wo dest fs
          = unzipFile (some (pre ++ [f])) wo dest fs ∧
      (unzipFile (some (pre ++ f :: post)) wo dest fs).2 ≠ none) ∧
    (∀ (env : DLEnv) (name base : String) (fs : FS) (m : String),
      env.getOk → env.tempOk → env.copyOk → env.mkdirOk →
      unzipErr env.arch env.wo = some m →
      (downloadAndUnzip env name base fs).err
          = some ("error unzipping file: " ++ m)) := by
  refine ⟨fun wo dest fs => rfl, ?_, ?_⟩
  · intro wo dest fs pre f post hpre hf
    constructor
    · simp only [unzipFile]
      exact unzipEntries_drops_tail wo dest f post hf pre fs hpre
    · rw [unzipFile_snd]
      simp only [unzipErr]
      induction pre with
      | nil =>
        simp only [List.nil_append, unzipEntriesErr]
        rcases he : entryErr wo f with _ | m
        · exact absurd he hf
        · simp
      | cons g pre ih =>
        have hg : entryErr wo g = none := hpre g (by simp)
        simp only [List.cons_append, unzipEntriesErr, hg]
        exact ih (fun x hx => hpre x (by simp [hx]))
  · intro env name base fs m hg ht hc hk hm
    simp only [downloadAndUnzip, hg, ht, hc, hk, Bool.not_true]
    rcases hu : unzipFile env.arch env.wo (goJoin base name)
        (fs.mkdirAllSegs (pathSegs (goJoin base name))) with ⟨fs2, e⟩
    have h2 := unzipFile_snd env.arch env.wo (goJoin base name)
        (fs.mkdirAllSegs (pathSegs (goJoin base name)))
    rw [hu, hm] at h2
    simp only at h2
    subst h2
    simp [hu]

/-- Outcome oracle for the `first_write_failure_aborts_archive` run
below: the entry named `bad.txt` cannot be opened for writing, every
other entry succeeds. -/
def failAtBad : ZipEntry → EntryOutcome :=
  fun f => if f.name = "bad.txt" then .openFail else .ok

/-- Concrete run of `first_write_failure_aborts_archive`: in an archive
`[good.txt, bad.txt, after.txt]` where writing `bad.txt` fails, the
extraction result is the same as for `[good.txt, bad.txt]` — the entry
behind the failure is never extracted — and the error is propagated. -/
theorem first_write_failure_aborts_archive_witness :
    ((∀ g ∈ ([⟨"good.txt", false, "g", 420⟩] : List ZipEntry),
        entryErr failAtBad g = none) ∧
      entryErr failAtBad ⟨"bad.txt", false, "b", 420⟩ ≠ none) ∧
    unzipFile (some ([⟨"good.txt", false, "g", 420⟩] ++
          ⟨"bad.txt", false, "b", 420⟩ :: [⟨"after.txt", false, "a", 420⟩]))
        failAtBad "dest" emptyFS
      = unzipFile (some ([⟨"good.txt", false, "g", 420⟩] ++
          [⟨"bad.txt", false, "b", 420⟩])) failAtBad "dest" emptyFS :=
  ⟨⟨by decide, by decide⟩,
    (first_write_failure_aborts_archive.2.1 failAtBad "dest" emptyFS
      [⟨"good.txt", false, "g", 420⟩] ⟨"bad.txt", false, "b", 420⟩
      [⟨"after.txt", false, "a", 420⟩] (by decide) (by decide)).1⟩

/-! ## C7: concatenation round trip -/

/-- The output tree of the specification's round-trip property: exactly
the files `a/1.txt` (content `X`) and `b/2.txt` (content `Y`), traversal
order `a` before `b`. -/
def exampleTree (X Y : String) : FsNode :=
  .dir (.cons "a" (.dir (.cons "1.txt" (.file X) .nil))
    (.cons "b" (.dir (.cons "2.txt" (.file Y) .nil)) .nil))

/-- C7: each matching file's full byte content is copied in traversal
order, each followed by a single newline separator; in particular for an
output tree holding exactly `a/1.txt` = `X` and `b/2.txt` = `Y`, the
combined output file contains exactly `X\nY\n`. -/
theorem concatenation_round_trip :
    (∀ (events : List WalkEvent) (cont : String → String),
      concatenateAllTxtFiles events (fun p => .ok (cont p))
        = String.join ((findAllTxtFiles events).map (fun p => cont p ++ "\n"))) ∧
    (∀ X Y : String,
      concatenateAllTxtFiles (treeEvents baseDir "AllChaosData" (exampleTree X Y))
          (tableRead (treeFilesOf baseDir "AllChaosData" (exampleTree X Y)))
        = X ++ "\n" ++ Y ++ "\n") := by
  constructor
  · intro events cont
    exact foldl_concat_contrib (fun p => ReadOutcome.ok (cont p))
      (findAllTxtFiles events) ""
  · intro X Y
    rfl

/-! ## Path lemmas

Facts about `splitChars`, `cleanSegs` and `renderSegs` needed to reason
symbolically about the paths the program builds with `filepath.Join`. -/

/-- A plain path segment: not empty, not `.`, not `..`. -/
def plainSeg (s : String) : Bool :=
  s != "" && s != "." && s != ".."

theorem splitChars_ne_nil (sep : Char) (cs : List Char) :
    splitChars sep cs ≠ [] := by
  cases cs with
  | nil => simp [splitChars]
  | cons c cs =>
    unfold splitChars
    split <;> split <;> simp

theorem splitChars_mem_nosep (sep : Char) (cs : List Char) :
    ∀ p ∈ splitChars sep cs, sep ∉ p.data := by
  induction cs with
  | nil =>
    intro p hp
    simp only [splitChars, List.mem_singleton] at hp
    subst hp
    simp
  | cons c cs ih =>
    intro p hp
    rcases hs : splitChars sep cs with _ | ⟨s, ss⟩
    · exact absurd hs (splitChars_ne_nil sep cs)
    · rw [hs] at ih
      simp only [splitChars, hs] at hp
      by_cases hc : c = sep
      · rw [if_pos hc, List.mem_cons] at hp
        rcases hp with hp | hp
        · subst hp; simp
        · exact ih p hp
      · rw [if_neg hc, List.mem_cons] at hp
        rcases hp with hp | hp
        · subst hp
          intro hmem
          rcases List.mem_cons.mp hmem with h | h
          · exact hc h.symm
          · exact ih s (List.mem_cons_self s ss) h
        · exact ih p (List.mem_cons_of_mem s hp)

theorem splitChars_no_sep (sep : Char) (cs : List Char) (h : sep ∉ cs) :
    splitChars sep cs = [String.mk cs] := by
  induction cs with
  | nil => rfl
  | cons c cs ih =>
    have hc : c ≠ sep := fun he => h (he ▸ List.mem_cons_self c cs)
    have hcs : sep ∉ cs := fun hm => h (List.mem_cons_of_mem c hm)
    simp only [splitChars, ih hcs]
    simp [fun he : c = sep => hc he]

theorem splitChars_break (sep : Char) (rest : List Char) (cs : List Char)
    (h : sep ∉ cs) :
    splitChars sep (cs ++ sep :: rest) = String.mk cs :: splitChars sep rest := by
  induction cs with
  | nil =>
    rcases hs : splitChars sep rest with _ | ⟨s, ss⟩
    · exact absurd hs (splitChars_ne_nil sep rest)
    · simp [splitChars, hs]
  | cons c cs ih =>
    have hc : c ≠ sep := fun he => h (he ▸ List.mem_cons_self c cs)
    have hcs : sep ∉ cs := fun hm => h (List.mem_cons_of_mem c hm)
    rw [List.cons_append]
    rcases hs : splitChars sep (cs ++ sep :: rest) with _ | ⟨s, ss⟩
    · exact absurd hs (splitChars_ne_nil sep (cs ++ sep :: rest))
    · have := ih hcs
      rw [hs] at this
      injection this with h1 h2
      simp only [splitChars, hs]
      simp [fun he : c = sep => hc he, h1, h2]

theorem goSplit_renderSegs (l : List String) (hl : l ≠ [])
    (h : ∀ s ∈ l, ('/' : Char) ∉ s.data) :
    goSplit (renderSegs l) '/' = l := by
  unfold goSplit renderSegs
  simp only [hl, if_false]
  show splitChars '/' (interSegs l) = l
  induction l with
  | nil => exact absurd rfl hl
  | cons s tl ih =>
    cases tl with
    | nil =>
      simp only [interSegs]
      rw [splitChars_no_sep '/' s.data (h s (by simp))]
    | cons s2 ss =>
      simp only [interSegs]
      rw [splitChars_break '/' (interSegs (s2 :: ss)) s.data (h s (by simp))]
      have := ih (by simp) (fun x hx => h x (by simp [List.mem_cons] at hx ⊢; tauto))
      simp only at this
      rw [this]

theorem foldl_cleanStep_plain (ys : List String) (h : ∀ s ∈ ys, plainSeg s) :
    ∀ acc : List String, List.foldl cleanStep acc ys = acc ++ ys := by
  induction ys with
  | nil => simp
  | cons y ys ih =>
    intro acc
    have hy := h y (by simp)
    simp only [plainSeg, Bool.and_eq_true, bne_iff_ne, ne_eq] at hy
    have hstep : cleanStep acc y = acc ++ [y] := by
      unfold cleanStep
      simp [hy.1.1, hy.1.2, hy.2]
    rw [List.foldl_cons, hstep, ih (fun s hs => h s (by simp [hs]))]
    simp

theorem foldl_cleanStep_dots (k : Nat) :
    ∀ j : Nat, List.foldl cleanStep (List.replicate j "..") (List.replicate k "..")
      = List.replicate (j + k) ".." := by
  induction k with
  | zero => intro j; simp
  | succ k ih =>
    intro j
    rw [List.replicate_succ, List.foldl_cons]
    have hstep : cleanStep (List.replicate j "..") ".." = List.replicate (j + 1) ".." := by
      unfold cleanStep
      cases j with
      | zero => simp
      | succ j =>
        have hlast : (List.replicate (j + 1) "..").getLast? = some ".." := by
          rw [List.replicate_succ', List.getLast?_concat]
        simp [hlast, List.replicate_succ']
    rw [hstep, ih (j + 1)]
    congr 1
    omega

theorem cleanStep_shape (acc : List String) (s : String)
    (h : ∃ k p, acc = List.replicate k ".." ++ p ∧ ∀ x ∈ p, plainSeg x) :
    ∃ k p, cleanStep acc s = List.replicate k ".." ++ p ∧ ∀ x ∈ p, plainSeg x := by
  obtain ⟨k, p, rfl, hp⟩ := h
  unfold cleanStep
  by_cases h1 : s = "" ∨ s = "."
  · exact ⟨k, p, by simp [h1], hp⟩
  · by_cases h2 : s = ".."
    · subst h2
      have hpcase : p = [] ∨ p ≠ [] := em _
      rcases hpcase with hpe | hpe
      · subst hpe
        refine ⟨k + 1, [], ?_, by simp⟩
        simp only [h1, if_false, if_true, List.append_nil]
        cases k with
        | zero => simp [List.replicate_succ']
        | succ k =>
          have hlast : (List.replicate (k + 1) "..").getLast? = some ".." := by
            rw [List.replicate_succ', List.getLast?_concat]
          simp [hlast, List.replicate_succ']
      · have hlast : (List.replicate k ".." ++ p).getLast? = p.getLast? := by
          rw [List.getLast?_append_of_ne_nil _ hpe]
        have hplast : p.getLast? ≠ some ".." := by
          intro hcon
          have hmem := List.mem_of_mem_getLast? hcon
          have := hp _ hmem
          simp [plainSeg] at this
        have hne : List.replicate k ".." ++ p ≠ [] := by simp [hpe]
        refine ⟨k, p.dropLast, ?_, fun x hx => hp x (List.dropLast_subset p hx)⟩
        simp only [h1, if_false, if_true]
        rw [if_neg (by rw [hlast]; tauto),
          List.dropLast_append_of_ne_nil _ hpe]
    · refine ⟨k, p ++ [s], by simp [h1, h2], ?_⟩
      intro x hx
      rcases List.mem_append.mp hx with hx | hx
      · exact hp x hx
      · have hxs : x = s := by simpa using hx
        subst hxs
        push_neg at h1
        simp [plainSeg, h1.1, h1.2, h2]

theorem cleanSegs_shape (l : List String) :
    ∃ k p, cleanSegs l = List.replicate k ".." ++ p ∧ ∀ x ∈ p, plainSeg x := by
  suffices h : ∀ (acc : List String),
      (∃ k p, acc = List.replicate k ".." ++ p ∧ ∀ x ∈ p, plainSeg x) →
      ∃ k p, List.foldl cleanStep acc l = List.replicate k ".." ++ p ∧
        ∀ x ∈ p, plainSeg x by
    exact h [] ⟨0, [], by simp, by simp⟩
  induction l with
  | nil => intro acc hacc; simpa using hacc
  | cons s tl ih =>
    intro acc hacc
    rw [List.foldl_cons]
    exact ih (cleanStep acc s) (cleanStep_shape acc s hacc)

theorem cleanSegs_fixpoint (l : List String) :
    cleanSegs (cleanSegs l) = cleanSegs l := by
  obtain ⟨k, p, hshape, hp⟩ := cleanSegs_shape l
  rw [hshape]
  show List.foldl cleanStep [] (List.replicate k ".." ++ p) = _
  rw [List.foldl_append]
  have hd := foldl_cleanStep_dots k 0
  simp only [List.replicate_zero, Nat.zero_add] at hd
  rw [hd, foldl_cleanStep_plain p hp]

theorem foldl_cleanStep_mem (l : List String) :
    ∀ (acc : List String) (s : String), s ∈ List.foldl cleanStep acc l →
      s ∈ acc ∨ s = ".." ∨ s ∈ l := by
  induction l with
  | nil => intro acc s hs; exact Or.inl hs
  | cons x xs ih =>
    intro acc s hs
    rw [List.foldl_cons] at hs
    rcases ih (cleanStep acc x) s hs with h | h | h
    · unfold cleanStep at h
      split at h
      · exact Or.inl h
      · split at h
        · split at h
          · rcases List.mem_append.mp h with h | h
            · exact Or.inl h
            · exact Or.inr (Or.inl (by simpa using h))
          · exact Or.inl (List.dropLast_subset acc h)
        · rcases List.mem_append.mp h with h | h
          · exact Or.inl h
          · have hsx : s = x := by simpa using h
            exact Or.inr (Or.inr (by simp [hsx]))
    · exact Or.inr (Or.inl h)
    · exact Or.inr (Or.inr (by simp [h]))

theorem cleanSegs_mem (l : List String) (s : String) (hs : s ∈ cleanSegs l) :
    s = ".." ∨ s ∈ l := by
  rcases foldl_cleanStep_mem l [] s hs with h | h
  · simp at h
  · exact h

/-- Splitting the rendering of a cleaned segment list recovers it: the
round-trip underlying nested `filepath.Join` calls. -/
theorem pathSegs_goJoin (a b : String) :
    pathSegs (goJoin a b) = cleanSegs (goSplit a '/' ++ goSplit b '/') := by
  unfold goJoin pathSegs
  by_cases hx : cleanSegs (goSplit a '/' ++ goSplit b '/') = []
  · rw [hx]
    simp only [renderSegs, if_true]
    decide
  · rw [goSplit_renderSegs _ hx ?slashfree]
    · exact cleanSegs_fixpoint _
    case slashfree =>
      intro s hs
      rcases cleanSegs_mem _ s hs with h | h
      · subst h; decide
      · rcases List.mem_append.mp h with h | h
        · exact splitChars_mem_nosep '/' a.data s h
        · exact splitChars_mem_nosep '/' b.data s h

/-! ## Filesystem lemmas -/

theorem FS.addDir_mem (fs : FS) (d : List String) : d ∈ (fs.addDir d).dirs := by
  by_cases h : d ∈ fs.dirs <;> simp [FS.addDir, h]

theorem FS.addDir_mono {fs : FS} {x : List String} (h : x ∈ fs.dirs)
    (d : List String) : x ∈ (fs.addDir d).dirs := by
  by_cases hd : d ∈ fs.dirs <;> simp [FS.addDir, hd, h]

theorem FS.addDir_files (fs : FS) (d : List String) :
    (fs.addDir d).files = fs.files := by
  by_cases h : d ∈ fs.dirs <;> simp [FS.addDir, h]

theorem FS.addDir_id (fs : FS) (d : List String) (h : d ∈ fs.dirs) :
    fs.addDir d = fs := by
  simp [FS.addDir, h]

theorem foldl_addDir_mono (ps : List (List String)) :
    ∀ (fs : FS) (x : List String), x ∈ fs.dirs → x ∈ (ps.foldl FS.addDir fs).dirs := by
  induction ps with
  | nil => intro fs x h; exact h
  | cons q ps ih =>
    intro fs x h
    exact ih (fs.addDir q) x (FS.addDir_mono h q)

theorem foldl_addDir_mem (ps : List (List String)) :
    ∀ (fs : FS) (q : List String), q ∈ ps → q ∈ (ps.foldl FS.addDir fs).dirs := by
  induction ps with
  | nil => simp
  | cons r ps ih =>
    intro fs q hq
    rcases List.mem_cons.mp hq with rfl | hq
    · exact foldl_addDir_mono ps (fs.addDir q) q (FS.addDir_mem fs q)
    · exact ih (fs.addDir r) q hq

theorem foldl_addDir_files (ps : List (List String)) :
    ∀ fs : FS, (ps.foldl FS.addDir fs).files = fs.files := by
  induction ps with
  | nil => intro fs; rfl
  | cons q ps ih =>
    intro fs
    rw [List.foldl_cons, ih, FS.addDir_files]

theorem foldl_addDir_id (ps : List (List String)) :
    ∀ fs : FS, (∀ q ∈ ps, q ∈ fs.dirs) → ps.foldl FS.addDir fs = fs := by
  induction ps with
  | nil => intro fs _; rfl
  | cons q ps ih =>
    intro fs h
    rw [List.foldl_cons, FS.addDir_id fs q (h q (by simp))]
    exact ih fs (fun r hr => h r (by simp [hr]))

theorem mkdirAllSegs_mem (fs : FS) (l : List String) :
    ∀ q ∈ prefixesOf l, q ∈ (fs.mkdirAllSegs l).dirs :=
  fun q hq => foldl_addDir_mem (prefixesOf l) fs q hq

theorem mkdirAllSegs_mono {fs : FS} {x : List String} (h : x ∈ fs.dirs)
    (l : List String) : x ∈ (fs.mkdirAllSegs l).dirs :=
  foldl_addDir_mono (prefixesOf l) fs x h

theorem mkdirAllSegs_files (fs : FS) (l : List String) :
    (fs.mkdirAllSegs l).files = fs.files :=
  foldl_addDir_files (prefixesOf l) fs

theorem mkdirAllSegs_id (fs : FS) (l : List String)
    (h : ∀ q ∈ prefixesOf l, q ∈ fs.dirs) : fs.mkdirAllSegs l = fs :=
  foldl_addDir_id (prefixesOf l) fs h

theorem FS.setFile_dirs (fs : FS) (p : List String) (c : String) (m : Nat) :
    (fs.setFile p c m).dirs = fs.dirs := rfl

theorem assocGet_assocWrite_self (l : List (List String × String × Nat))
    (k : List String) (c : String) (m : Nat) :
    assocGet (assocWrite l k c m) k = some (c, writtenMode l k m) := by
  induction l with
  | nil => simp [assocWrite, assocGet, writtenMode]
  | cons kv rest ih =>
    rcases kv with ⟨k2, v2⟩
    by_cases h : k2 = k
    · subst h
      simp [assocWrite, assocGet, writtenMode]
    · simp [assocWrite, assocGet, writtenMode, h, ih]

theorem assocGet_assocWrite_other (l : List (List String × String × Nat))
    (k k2 : List String) (c : String) (m : Nat) (h : k2 ≠ k) :
    assocGet (assocWrite l k c m) k2 = assocGet l k2 := by
  induction l with
  | nil =>
    have hne : ¬k = k2 := fun he => h he.symm
    simp [assocWrite, assocGet, hne]
  | cons kv rest ih =>
    rcases kv with ⟨k3, v3⟩
    by_cases h3 : k3 = k
    · subst h3
      have hne : ¬k3 = k2 := fun he => h he.symm
      simp [assocWrite, assocGet, hne]
    · simp [assocWrite, assocGet, h3, ih]

theorem assocWrite_id (l : List (List String × String × Nat)) (k : List String)
    (c : String) (m m0 : Nat) (h : assocGet l k = some (c, m0)) :
    assocWrite l k c m = l := by
  induction l with
  | nil => simp [assocGet] at h
  | cons kv rest ih =>
    rcases kv with ⟨k2, v2⟩
    by_cases h2 : k2 = k
    · subst h2
      simp only [assocGet, if_pos rfl] at h
      have hv : v2 = (c, m0) := by simpa using h
      subst hv
      simp [assocWrite]
    · simp only [assocGet, if_neg h2] at h
      simp [assocWrite, h2, ih h]

theorem FS.setFile_id (fs : FS) (p : List String) (c : String) (m m0 : Nat)
    (h : assocGet fs.files p = some (c, m0)) : fs.setFile p c m = fs := by
  unfold FS.setFile
  rw [assocWrite_id fs.files p c m m0 h]

/-! ## C6: truncating overwrite and idempotent extraction -/

/-- The destination path segments of one archive entry. -/
def entryKey (d : String) (f : ZipEntry) : List String :=
  pathSegs (goJoin d f.name)

/-- The destination paths of the file entries of an archive. -/
def fileKeys (d : String) (es : List ZipEntry) : List (List String) :=
  es.filterMap (fun f => if f.isDir then none else some (entryKey d f))

/-- The directories one entry's processing creates. -/
def entryDirs (d : String) (f : ZipEntry) : List (List String) :=
  if f.isDir then prefixesOf (entryKey d f)
  else prefixesOf (entryKey d f).dropLast

/-- The filesystem effect of one archive entry when nothing fails. -/
def applyEntry (destDir : String) (fs : FS) (f : ZipEntry) : FS :=
  (unzipEntry allOk destDir fs f).1

theorem applyEntry_def (d : String) (fs : FS) (f : ZipEntry) :
    applyEntry d fs f =
      if f.isDir then fs.mkdirAllSegs (entryKey d f)
      else ((fs.mkdirAllSegs (entryKey d f).dropLast).setFile (entryKey d f)
        f.content f.mode) := by
  unfold applyEntry unzipEntry allOk entryKey
  by_cases h : f.isDir <;> simp [h]

theorem entryErr_allOk (f : ZipEntry) : entryErr allOk f = none := by
  unfold entryErr allOk
  by_cases h : f.isDir <;> simp [h]

theorem unzipEntries_allOk (d : String) (es : List ZipEntry) :
    ∀ fs : FS, unzipEntries allOk d es fs = (es.foldl (applyEntry d) fs, none) := by
  induction es with
  | nil => intro fs; rfl
  | cons f rest ih =>
    intro fs
    have h2 := unzipEntry_snd allOk d fs f
    rw [entryErr_allOk] at h2
    rcases hu : unzipEntry allOk d fs f with ⟨fs1, e⟩
    rw [hu] at h2
    simp only at h2
    subst h2
    have h1 : applyEntry d fs f = fs1 := by rw [applyEntry, hu]
    simp [unzipEntries, hu, ih, h1]

theorem foldl_apply_files_untouched (d : String) (es : List ZipEntry) :
    ∀ (fs : FS) (k : List String), k ∉ fileKeys d es →
      assocGet (es.foldl (applyEntry d) fs).files k = assocGet fs.files k := by
  induction es with
  | nil => intro fs k _; rfl
  | cons g rest ih =>
    intro fs k hk
    rw [List.foldl_cons]
    by_cases hg : g.isDir
    · have hkeys : fileKeys d (g :: rest) = fileKeys d rest := by
        simp [fileKeys, hg]
      rw [hkeys] at hk
      rw [ih (applyEntry d fs g) k hk, applyEntry_def]
      simp [hg, mkdirAllSegs_files]
    · have hkeys : fileKeys d (g :: rest) = entryKey d g :: fileKeys d rest := by
        simp [fileKeys, hg]
      rw [hkeys, List.mem_cons] at hk
      push_neg at hk
      rw [ih (applyEntry d fs g) k hk.2, applyEntry_def]
      simp only [hg, if_false, Bool.false_eq_true]
      show assocGet (assocWrite _ _ _ _) k = _
      rw [assocGet_assocWrite_other _ _ _ _ _ hk.1, mkdirAllSegs_files]

theorem foldl_apply_dirs_mono (d : String) (es : List ZipEntry) :
    ∀ (fs : FS) (x : List String), x ∈ fs.dirs →
      x ∈ (es.foldl (applyEntry d) fs).dirs := by
  induction es with
  | nil => intro fs x h; exact h
  | cons g rest ih =>
    intro fs x h
    rw [List.foldl_cons]
    apply ih
    rw [applyEntry_def]
    by_cases hg : g.isDir
    · simpa [hg] using mkdirAllSegs_mono h (entryKey d g)
    · simpa [hg, FS.setFile_dirs] using
        mkdirAllSegs_mono h (entryKey d g).dropLast

theorem foldl_apply_lookup (d : String) (es : List ZipEntry) :
    ∀ fs : FS, (fileKeys d es).Nodup →
      ∀ f ∈ es, f.isDir = false →
        assocGet ((es.foldl (applyEntry d) fs)).files (entryKey d f)
          = some (f.content, writtenMode fs.files (entryKey d f) f.mode) := by
  induction es with
  | nil => simp
  | cons g rest ih =>
    intro fs hnd f hf hfile
    rcases List.mem_cons.mp hf with rfl | hf2
    · have hkeys : fileKeys d (f :: rest) = entryKey d f :: fileKeys d rest := by
        simp [fileKeys, hfile]
      rw [hkeys, List.nodup_cons] at hnd
      rw [List.foldl_cons, foldl_apply_files_untouched d rest _ _ hnd.1,
        applyEntry_def]
      simp only [hfile, if_false, Bool.false_eq_true]
      show assocGet (assocWrite _ _ _ _) _ = _
      rw [assocGet_assocWrite_self]
      have hm : writtenMode (fs.mkdirAllSegs (entryKey d f).dropLast).files
          (entryKey d f) f.mode = writtenMode fs.files (entryKey d f) f.mode := by
        unfold writtenMode
        rw [mkdirAllSegs_files]
      rw [hm]
    · rw [List.foldl_cons]
      by_cases hg : g.isDir
      · have hkeys : fileKeys d (g :: rest) = fileKeys d rest := by
          simp [fileKeys, hg]
        rw [hkeys] at hnd
        have hfiles : (applyEntry d fs g).files = fs.files := by
          rw [applyEntry_def]
          simp [hg, mkdirAllSegs_files]
        rw [ih (applyEntry d fs g) hnd f hf2 hfile, hfiles]
      · have hkeys : fileKeys d (g :: rest) = entryKey d g :: fileKeys d rest := by
          simp [fileKeys, hg]
        rw [hkeys, List.nodup_cons] at hnd
        have hmem : entryKey d f ∈ fileKeys d rest :=
          List.mem_filterMap.mpr ⟨f, hf2, by simp [hfile]⟩
        have hne : entryKey d f ≠ entryKey d g := by
          intro he
          exact hnd.1 (he ▸ hmem)
        have hget : assocGet (applyEntry d fs g).files (entryKey d f)
            = assocGet fs.files (entryKey d f) := by
          rw [applyEntry_def]
          simp only [hg, if_false, Bool.false_eq_true]
          show assocGet (assocWrite _ _ _ _) _ = _
          rw [assocGet_assocWrite_other _ _ _ _ _ hne, mkdirAllSegs_files]
        have hm : writtenMode (applyEntry d fs g).files (entryKey d f) f.mode
            = writtenMode fs.files (entryKey d f) f.mode := by
          unfold writtenMode
          rw [hget]
        rw [ih (applyEntry d fs g) hnd.2 f hf2 hfile, hm]

theorem foldl_apply_dirs (d : String) (es : List ZipEntry) :
    ∀ fs : FS, ∀ f ∈ es, ∀ q ∈ entryDirs d f,
      q ∈ (es.foldl (applyEntry d) fs).dirs := by
  induction es with
  | nil => simp
  | cons g rest ih =>
    intro fs f hf q hq
    rcases List.mem_cons.mp hf with rfl | hf2
    · rw [List.foldl_cons]
      apply foldl_apply_dirs_mono
      rw [applyEntry_def]
      by_cases hg : f.isDir
      · rw [entryDirs, if_pos hg] at hq
        simpa [hg] using mkdirAllSegs_mem fs (entryKey d f) q hq
      · rw [entryDirs, if_neg hg] at hq
        simpa [hg, FS.setFile_dirs] using
          mkdirAllSegs_mem fs (entryKey d f).dropLast q hq
    · rw [List.foldl_cons]
      exact ih (applyEntry d fs g) f hf2 q hq

theorem applyEntry_id (d : String) (X : FS) (f : ZipEntry)
    (hdirs : ∀ q ∈ entryDirs d f, q ∈ X.dirs)
    (hfile : f.isDir = false →
      ∃ m0, assocGet X.files (entryKey d f) = some (f.content, m0)) :
    applyEntry d X f = X := by
  rw [applyEntry_def]
  by_cases h : f.isDir
  · rw [if_pos h]
    exact mkdirAllSegs_id X _ (by rw [entryDirs, if_pos h] at hdirs; exact hdirs)
  · rw [if_neg h]
    rw [mkdirAllSegs_id X _ (by rw [entryDirs, if_neg h] at hdirs; exact hdirs)]
    obtain ⟨m0, hm0⟩ := hfile (by simpa using h)
    exact FS.setFile_id X _ _ _ m0 hm0

theorem foldl_apply_id (d : String) (es : List ZipEntry) (X : FS)
    (h : ∀ f ∈ es, applyEntry d X f = X) : es.foldl (applyEntry d) X = X := by
  induction es with
  | nil => rfl
  | cons g rest ih =>
    rw [List.foldl_cons, h g (by simp)]
    exact ih (fun f hf => h f (by simp [hf]))

/-- C6, counterexample to the claim as stated: an archive entry named
`b.txt` with declared permission bits 420, extracted over a pre-existing
`b.txt` with bits 493, is truncated and rewritten but keeps the old bits
493 — `os.OpenFile` with `O_CREATE|O_TRUNC` applies its permission
argument only when it creates the file, so extraction does not preserve
the entry's declared permission bits on a pre-existing file. -/
theorem extraction_entry_mode_not_preserved_on_existing :
    (unzipFile (some [⟨"b.txt", false, "new", 420⟩]) allOk (goJoin baseDir "acme")
        ⟨[], [(["AllChaosData", "acme", "b.txt"], "old", 493)]⟩).2 = none ∧
    (unzipFile (some [⟨"b.txt", false, "new", 420⟩]) allOk (goJoin baseDir "acme")
        ⟨[], [(["AllChaosData", "acme", "b.txt"], "old", 493)]⟩).1.lookupFile
        (goJoin (goJoin baseDir "acme") "b.txt") = some ("new", 493) ∧
    (493 : Nat) ≠ 420 :=
  ⟨by decide, by decide, by decide⟩

/-- C6, amended: extraction of a file entry creates the needed parent
directories and writes the decompressed bytes to the destination path,
overwriting with truncate semantics whatever the (arbitrary) starting
filesystem held there; the entry's declared permission bits are applied
when the write creates the file, while a pre-existing file keeps its old
bits (`writtenMode`); consequently re-running extraction of the same
archive into the same destination succeeds, overwriting the same-named
files without error and changing nothing. -/
theorem extraction_overwrites_and_is_idempotent
    (dest : String) (es : List ZipEntry) (fs : FS)
    (hnd : (es.filterMap (fun f => if f.isDir then none
        else some (pathSegs (goJoin dest f.name)))).Nodup) :
    (unzipFile (some es) allOk dest fs).2 = none ∧
    (∀ f ∈ es, f.isDir = false →
      (unzipFile (some es) allOk dest fs).1.lookupFile (goJoin dest f.name)
          = some (f.content,
              writtenMode fs.files (pathSegs (goJoin dest f.name)) f.mode) ∧
      ∀ q ∈ prefixesOf (pathSegs (goJoin dest f.name)).dropLast,
        q ∈ (unzipFile (some es) allOk dest fs).1.dirs) ∧
    unzipFile (some es) allOk dest (unzipFile (some es) allOk dest fs).1
      = ((unzipFile (some es) allOk dest fs).1, none) := by
  have hnd2 : (fileKeys dest es).Nodup := hnd
  have hU : ∀ fs0 : FS,
      unzipFile (some es) allOk dest fs0 = (es.foldl (applyEntry dest) fs0, none) := by
    intro fs0
    simp [unzipFile, unzipEntries_allOk]
  refine ⟨by rw [hU fs], fun f hf hfile => ⟨?_, ?_⟩, ?_⟩
  · rw [hU fs]
    exact foldl_apply_lookup dest es fs hnd2 f hf hfile
  · intro q hq
    rw [hU fs]
    refine foldl_apply_dirs dest es fs f hf q ?_
    rw [entryDirs, if_neg (by simp [hfile])]
    exact hq
  · rw [hU fs, hU (es.foldl (applyEntry dest) fs)]
    simp only [Prod.mk.injEq, and_true]
    apply foldl_apply_id
    intro f hf
    apply applyEntry_id
    · intro q hq
      exact foldl_apply_dirs dest es fs f hf q hq
    · intro hfile
      exact ⟨writtenMode fs.files (entryKey dest f) f.mode,
        foldl_apply_lookup dest es fs hnd2 f hf hfile⟩

/-- Concrete run of `extraction_overwrites_and_is_idempotent`: a
three-entry archive (one directory, two files with nested paths)
extracted into `AllChaosData/acme` on top of a filesystem that already
holds an old version of one of the files (which therefore keeps its old
permission bits). -/
theorem extraction_overwrites_and_is_idempotent_witness :
    (([⟨"sub", true, "", 493⟩, ⟨"sub/a.txt", false, "hello", 420⟩,
        ⟨"b.txt", false, "world", 420⟩] : List ZipEntry).filterMap
      (fun f => if f.isDir then none
        else some (pathSegs (goJoin (goJoin baseDir "acme") f.name)))).Nodup ∧
    ((unzipFile (some [⟨"sub", true, "", 493⟩, ⟨"sub/a.txt", false, "hello", 420⟩,
        ⟨"b.txt", false, "world", 420⟩]) allOk (goJoin baseDir "acme")
        ⟨[], [(["AllChaosData", "acme", "b.txt"], "old", 493)]⟩).2 = none ∧
      (∀ f ∈ ([⟨"sub", true, "", 493⟩, ⟨"sub/a.txt", false, "hello", 420⟩,
          ⟨"b.txt", false, "world", 420⟩] : List ZipEntry), f.isDir = false →
        (unzipFile (some [⟨"sub", true, "", 493⟩, ⟨"sub/a.txt", false, "hello", 420⟩,
            ⟨"b.txt", false, "world", 420⟩]) allOk (goJoin baseDir "acme")
            ⟨[], [(["AllChaosData", "acme", "b.txt"], "old", 493)]⟩).1.lookupFile
            (goJoin (goJoin baseDir "acme") f.name)
          = some (f.content,
              writtenMode [(["AllChaosData", "acme", "b.txt"], "old", 493)]
                (pathSegs (goJoin (goJoin baseDir "acme") f.name)) f.mode) ∧
        ∀ q ∈ prefixesOf (pathSegs (goJoin (goJoin baseDir "acme") f.name)).dropLast,
          q ∈ (unzipFile (some [⟨"sub", true, "", 493⟩,
              ⟨"sub/a.txt", false, "hello", 420⟩, ⟨"b.txt", false, "world", 420⟩])
              allOk (goJoin baseDir "acme")
              ⟨[], [(["AllChaosData", "acme", "b.txt"], "old", 493)]⟩).1.dirs) ∧
      unzipFile (some [⟨"sub", true, "", 493⟩, ⟨"sub/a.txt", false, "hello", 420⟩,
          ⟨"b.txt", false, "world", 420⟩]) allOk (goJoin baseDir "acme")
          (unzipFile (some [⟨"sub", true, "", 493⟩, ⟨"sub/a.txt", false, "hello", 420⟩,
            ⟨"b.txt", false, "world", 420⟩]) allOk (goJoin baseDir "acme")
            ⟨[], [(["AllChaosData", "acme", "b.txt"], "old", 493)]⟩).1
        = ((unzipFile (some [⟨"sub", true, "", 493⟩, ⟨"sub/a.txt", false, "hello", 420⟩,
            ⟨"b.txt", false, "world", 420⟩]) allOk (goJoin baseDir "acme")
            ⟨[], [(["AllChaosData", "acme", "b.txt"], "old", 493)]⟩).1, none)) :=
  ⟨by decide,
    extraction_overwrites_and_is_idempotent (goJoin baseDir "acme")
      [⟨"sub", true, "", 493⟩, ⟨"sub/a.txt", false, "hello", 420⟩,
        ⟨"b.txt", false, "world", 420⟩]
      ⟨[], [(["AllChaosData", "acme", "b.txt"], "old", 493)]⟩ (by decide)⟩

/-! ## C3: filtering, directory count, and the completed counter -/

/-- Whether processing a segment list never pops above a stack of the
given depth (so that a relative path with that many leading segments is
not escaped). -/
def depthOK : Nat → List String → Bool
  | _, [] => true
  | d, s :: ss =>
    if s = "" ∨ s = "." then depthOK d ss
    else if s = ".." then decide (0 < d) && depthOK (d - 1) ss
    else depthOK (d + 1) ss

/-- A name that is a single plain path segment (every dataset name in
the real index is one). -/
def simpleName (nm : String) : Prop :=
  nm ≠ "" ∧ nm ≠ "." ∧ nm ≠ ".." ∧ ('/' : Char) ∉ nm.data

/-- An archive entry name that resolves to a non-empty relative path
that stays below the extraction directory. -/
def safeZipName (nm : String) : Prop :=
  depthOK 0 (goSplit nm '/') = true ∧ cleanSegs (goSplit nm '/') ≠ []

instance (nm : String) : Decidable (simpleName nm) := by
  unfold simpleName
  infer_instance

instance (nm : String) : Decidable (safeZipName nm) := by
  unfold safeZipName
  infer_instance

theorem foldl_cleanStep_stack (ys : List String) :
    ∀ (acc bs : List String), (∀ s ∈ bs, plainSeg s) →
      depthOK bs.length ys = true →
      List.foldl cleanStep (acc ++ bs) ys = acc ++ List.foldl cleanStep bs ys := by
  induction ys with
  | nil => simp
  | cons y ys ih =>
    intro acc bs hbs hd
    rw [List.foldl_cons, List.foldl_cons]
    by_cases h1 : y = "" ∨ y = "."
    · have hstep1 : cleanStep (acc ++ bs) y = acc ++ bs := by simp [cleanStep, h1]
      have hstep2 : cleanStep bs y = bs := by simp [cleanStep, h1]
      rw [hstep1, hstep2]
      exact ih acc bs hbs (by unfold depthOK at hd; rwa [if_pos h1] at hd)
    · by_cases h2 : y = ".."
      · subst h2
        unfold depthOK at hd
        rw [if_neg h1, if_pos rfl, Bool.and_eq_true, decide_eq_true_eq] at hd
        have hbne : bs ≠ [] := by
          intro hb
          rw [hb] at hd
          simp at hd
        have hlastp : bs.getLast? ≠ some ".." := by
          intro hcon
          have := hbs _ (List.mem_of_mem_getLast? hcon)
          simp [plainSeg] at this
        have hstep1 : cleanStep (acc ++ bs) ".." = acc ++ bs.dropLast := by
          unfold cleanStep
          rw [if_neg (by simp), if_pos rfl,
            if_neg (by
              rw [List.getLast?_append_of_ne_nil _ hbne]
              simp [hbne, hlastp]),
            List.dropLast_append_of_ne_nil _ hbne]
        have hstep2 : cleanStep bs ".." = bs.dropLast := by
          unfold cleanStep
          rw [if_neg (by simp), if_pos rfl, if_neg (by simp [hbne, hlastp])]
        rw [hstep1, hstep2]
        refine ih acc bs.dropLast (fun s hs => hbs s (List.dropLast_subset bs hs)) ?_
        have hlen : bs.dropLast.length = bs.length - 1 := by simp
        rw [hlen]
        exact hd.2
      · have hplain : plainSeg y := by
          push_neg at h1
          simp [plainSeg, h1.1, h1.2, h2]
        have hstep1 : cleanStep (acc ++ bs) y = acc ++ (bs ++ [y]) := by
          unfold cleanStep
          rw [if_neg h1, if_neg h2, List.append_assoc]
        have hstep2 : cleanStep bs y = bs ++ [y] := by
          unfold cleanStep
          rw [if_neg h1, if_neg h2]
        rw [hstep1, hstep2]
        refine ih acc (bs ++ [y]) ?_ ?_
        · intro s hs
          rcases List.mem_append.mp hs with hs | hs
          · exact hbs s hs
          · simpa using (by simpa using hs : s = y) ▸ hplain
        · have hlen : (bs ++ [y]).length = bs.length + 1 := by simp
          rw [hlen]
          unfold depthOK at hd
          rwa [if_neg h1, if_neg h2] at hd

theorem plainSeg_of_simple (nm : String) (hn : simpleName nm) : plainSeg nm := by
  simp [plainSeg, bne_iff_ne, hn.1, hn.2.1, hn.2.2.1]

theorem goSplit_simple (nm : String) (hn : simpleName nm) :
    goSplit nm '/' = [nm] := by
  unfold goSplit
  rw [splitChars_no_sep '/' nm.data hn.2.2.2]

theorem dirPath_clean (name : String) (hn : simpleName name) :
    cleanSegs (goSplit baseDir '/' ++ goSplit name '/') = ["AllChaosData", name] := by
  have hbase : goSplit baseDir '/' = ["AllChaosData"] := by decide
  rw [hbase, goSplit_simple name hn]
  have hplain : ∀ s ∈ ["AllChaosData", name], plainSeg s := by
    intro s hs
    rcases List.mem_cons.mp hs with rfl | hs
    · decide
    · have hsn : s = name := by simpa using hs
      exact hsn ▸ plainSeg_of_simple name hn
  show List.foldl cleanStep [] ["AllChaosData", name] = _
  rw [foldl_cleanStep_plain _ hplain []]
  rfl

theorem dirPath_segs (name : String) (hn : simpleName name) :
    pathSegs (goJoin baseDir name) = ["AllChaosData", name] := by
  rw [pathSegs_goJoin, dirPath_clean name hn]

theorem dirPath_split (name : String) (hn : simpleName name) :
    goSplit (goJoin baseDir name) '/' = ["AllChaosData", name] := by
  unfold goJoin
  rw [dirPath_clean name hn]
  refine goSplit_renderSegs _ (by simp) ?_
  intro s hs
  rcases List.mem_cons.mp hs with rfl | hs
  · decide
  · have hsn : s = name := by simpa using hs
    exact hsn ▸ hn.2.2.2

theorem entry_segs (name : String) (hn : simpleName name) (fnm : String)
    (hsafe : safeZipName fnm) :
    pathSegs (goJoin (goJoin baseDir name) fnm)
      = "AllChaosData" :: name :: cleanSegs (goSplit fnm '/') := by
  rw [pathSegs_goJoin, dirPath_split name hn]
  show List.foldl cleanStep [] (["AllChaosData", name] ++ goSplit fnm '/') = _
  rw [List.foldl_append]
  have hplain : ∀ s ∈ ["AllChaosData", name], plainSeg s := by
    intro s hs
    rcases List.mem_cons.mp hs with rfl | hs
    · decide
    · have hsn : s = name := by simpa using hs
      exact hsn ▸ plainSeg_of_simple name hn
  rw [foldl_cleanStep_plain _ hplain [], List.nil_append]
  have := foldl_cleanStep_stack (goSplit fnm '/') ["AllChaosData", name] [] (by simp)
    (by simpa using hsafe.1)
  simp only [List.append_nil] at this
  rw [this]
  rfl

/-- The error returned by one `downloadAndUnzip` call, as a function of
its environment alone. -/
def dlErrOf (env : DLEnv) : Option String :=
  if !env.getOk then some "error downloading"
  else if !env.tempOk then some "error creating temp file"
  else if !env.copyOk then some "error writing to temp file"
  else if !env.mkdirOk then some "error creating directory"
  else (unzipErr env.arch env.wo).map (fun e => "error unzipping file: " ++ e)

theorem downloadAndUnzip_err (env : DLEnv) (n b : String) (fs : FS) :
    (downloadAndUnzip env n b fs).err = dlErrOf env := by
  unfold downloadAndUnzip dlErrOf
  by_cases hg : env.getOk = true
  · by_cases ht : env.tempOk = true
    · by_cases hc : env.copyOk = true
      · by_cases hk : env.mkdirOk = true
        · simp only [hg, ht, hc, hk, Bool.not_true, Bool.false_eq_true, if_false]
          rcases hu : unzipFile env.arch env.wo (goJoin b n)
              (fs.mkdirAllSegs (pathSegs (goJoin b n))) with ⟨fs2, e⟩
          have h2 := unzipFile_snd env.arch env.wo (goJoin b n)
            (fs.mkdirAllSegs (pathSegs (goJoin b n)))
          rw [hu] at h2
          simp only at h2
          rw [← h2]
          cases e <;> simp
        · simp [hg, ht, hc, hk]
      · simp [hg, ht, hc]
    · simp [hg, ht]
  · simp [hg]

/-- Environment for one entry in which nothing fails and the archive's
entry names are safe relative paths. -/
def envAllOk (env : DLEnv) : Bool :=
  env.getOk && env.tempOk && env.copyOk && env.mkdirOk &&
    (match env.arch with
     | none => false
     | some es => es.all (fun f =>
        decide (env.wo f = .ok) && decide (safeZipName f.name)))

theorem envAllOk_spec (env : DLEnv) (h : envAllOk env = true) :
    env.getOk = true ∧ env.tempOk = true ∧ env.copyOk = true ∧
      env.mkdirOk = true ∧
      ∃ es, env.arch = some es ∧
        ∀ f ∈ es, env.wo f = .ok ∧ safeZipName f.name := by
  unfold envAllOk at h
  rcases ha : env.arch with _ | es
  · rw [ha] at h
    simp at h
  · rw [ha] at h
    simp only [Bool.and_eq_true, List.all_eq_true, Bool.and_eq_true,
      decide_eq_true_eq] at h
    exact ⟨h.1.1.1.1, h.1.1.1.2, h.1.1.2, h.1.2, es, rfl, h.2⟩

theorem entryErr_of_ok (wo : ZipEntry → EntryOutcome) (f : ZipEntry)
    (h : wo f = .ok) : entryErr wo f = none := by
  unfold entryErr
  by_cases hd : f.isDir <;> simp [hd, h]

theorem unzipEntriesErr_none (wo : ZipEntry → EntryOutcome) (es : List ZipEntry)
    (h : ∀ f ∈ es, wo f = .ok) : unzipEntriesErr wo es = none := by
  induction es with
  | nil => rfl
  | cons f rest ih =>
    unfold unzipEntriesErr
    rw [entryErr_of_ok wo f (h f (by simp))]
    exact ih (fun g hg => h g (by simp [hg]))

theorem envAllOk_err (env : DLEnv) (h : envAllOk env = true) :
    dlErrOf env = none := by
  obtain ⟨hg, ht, hc, hk, es, ha, hall⟩ := envAllOk_spec env h
  unfold dlErrOf
  simp only [hg, ht, hc, hk, Bool.not_true, Bool.false_eq_true, if_false, ha,
    unzipErr]
  rw [unzipEntriesErr_none env.wo es (fun f hf => (hall f hf).1)]
  rfl

theorem foldl_procStep_completed (fl : Option (Finset String))
    (env : IndexEntry → DLEnv) (entries : List IndexEntry) :
    ∀ st : ProcState,
      (entries.foldl (procStep fl env) st).completed
        = st.completed + (entries.filter (entrySelected fl)).countP
            (fun e => (dlErrOf (env e)).isNone) := by
  induction entries with
  | nil => intro st; simp
  | cons e rest ih =>
    intro st
    rw [List.foldl_cons]
    by_cases hsel : entrySelected fl e
    · rw [List.filter_cons_of_pos hsel, List.countP_cons]
      have herr := downloadAndUnzip_err (env e) e.name baseDir st.fs
      rcases hd : dlErrOf (env e) with _ | m
      · rw [hd] at herr
        simp only [procStep, hsel, if_true, herr, ih]
        simp [hd]
        omega
      · rw [hd] at herr
        simp only [procStep, hsel, if_true, herr, ih]
        simp [hd]
    · rw [List.filter_cons_of_neg hsel]
      simp only [procStep, hsel, if_false]
      exact ih st

/-- Whether a directory path is an immediate subdirectory of the base
directory `AllChaosData`. -/
def atBase (d : List String) : Bool :=
  decide (d.dropLast = ["AllChaosData"])

theorem atBase_len (q : List String) (hb : atBase q = true) : q.length = 2 := by
  have h := of_decide_eq_true hb
  have hlen := congrArg List.length h
  simp only [List.length_dropLast, List.length_cons, List.length_nil] at hlen
  omega

theorem prefix_two (l : List String) (a b : String) (q : List String)
    (hq : q ∈ prefixesOf (a :: b :: l)) (hlen : q.length = 2) : q = [a, b] := by
  simp only [prefixesOf, List.mem_map, List.mem_range] at hq
  obtain ⟨i, hi, rfl⟩ := hq
  cases i with
  | zero => simp at hlen
  | succ j =>
    simp only [List.take_succ_cons] at hlen ⊢
    have hz : (l.take j).length = 0 := by
      simp only [List.length_cons] at hlen
      omega
    have hnil : l.take j = [] := List.eq_nil_of_length_eq_zero hz
    simp [hnil]

theorem foldl_addDir_filter (ps : List (List String)) :
    ∀ fs : FS, (∀ q ∈ ps, atBase q = true → q ∈ fs.dirs) →
      ((ps.foldl FS.addDir fs).dirs.filter atBase) = fs.dirs.filter atBase := by
  induction ps with
  | nil => intro fs _; rfl
  | cons q ps ih =>
    intro fs h
    rw [List.foldl_cons,
      ih (fs.addDir q) (fun r hr hb => FS.addDir_mono (h r (by simp [hr]) hb) q)]
    by_cases hq : q ∈ fs.dirs
    · rw [FS.addDir_id fs q hq]
    · have hb : atBase q = false := by
        rcases Bool.eq_false_or_eq_true (atBase q) with hb | hb
        · exact absurd (h q (by simp) hb) hq
        · exact hb
      simp [FS.addDir, hq, List.filter_cons, hb]

theorem mkdirAllSegs_filter (fs : FS) (l : List String)
    (h : ∀ q ∈ prefixesOf l, atBase q = true → q ∈ fs.dirs) :
    (fs.mkdirAllSegs l).dirs.filter atBase = fs.dirs.filter atBase :=
  foldl_addDir_filter (prefixesOf l) fs h

theorem unzip_dirs_filter (wo : ZipEntry → EntryOutcome) (name : String)
    (hn : simpleName name) (es : List ZipEntry)
    (hall : ∀ f ∈ es, wo f = .ok ∧ safeZipName f.name) :
    ∀ fs : FS, ["AllChaosData", name] ∈ fs.dirs →
      ((unzipEntries wo (goJoin baseDir name) es fs).1.dirs.filter atBase)
        = fs.dirs.filter atBase := by
  induction es with
  | nil => intro fs _; rfl
  | cons f rest ih =>
    intro fs hmem
    obtain ⟨hok, hsafe⟩ := hall f (by simp)
    have hsegs := entry_segs name hn f.name hsafe
    have hcs : cleanSegs (goSplit f.name '/') ≠ [] := hsafe.2
    have hallrest : ∀ g ∈ rest, wo g = .ok ∧ safeZipName g.name :=
      fun g hg => hall g (by simp [hg])
    by_cases hd : f.isDir
    · have hentry : unzipEntry wo (goJoin baseDir name) fs f
          = (fs.mkdirAllSegs (pathSegs (goJoin (goJoin baseDir name) f.name)),
            none) := by
        unfold unzipEntry
        rw [hok]
        simp [hd]
      simp only [unzipEntries, hentry]
      rw [ih hallrest _ (mkdirAllSegs_mono hmem _)]
      apply mkdirAllSegs_filter
      intro q hq hb
      rw [hsegs] at hq
      have hq2 := prefix_two _ "AllChaosData" name q hq (atBase_len q hb)
      rw [hq2]
      exact hmem
    · have hentry : unzipEntry wo (goJoin baseDir name) fs f
          = ((fs.mkdirAllSegs
                (pathSegs (goJoin (goJoin baseDir name) f.name)).dropLast).setFile
              (pathSegs (goJoin (goJoin baseDir name) f.name)) f.content f.mode,
            none) := by
        unfold unzipEntry
        rw [hok]
        simp [hd]
      simp only [unzipEntries, hentry]
      have hdrop : (pathSegs (goJoin (goJoin baseDir name) f.name)).dropLast
          = "AllChaosData" :: name :: (cleanSegs (goSplit f.name '/')).dropLast := by
        rw [hsegs]
        have hsplit2 : "AllChaosData" :: name :: cleanSegs (goSplit f.name '/')
            = ["AllChaosData", name] ++ cleanSegs (goSplit f.name '/') := rfl
        rw [hsplit2, List.dropLast_append_of_ne_nil _ hcs]
        rfl
      rw [ih hallrest _ (by
        show _ ∈ ((fs.mkdirAllSegs _).setFile _ _ _).dirs
        rw [FS.setFile_dirs]
        exact mkdirAllSegs_mono hmem _)]
      show (((fs.mkdirAllSegs _).setFile _ _ _).dirs.filter atBase) = _
      rw [FS.setFile_dirs]
      apply mkdirAllSegs_filter
      intro q hq hb
      rw [hdrop] at hq
      have hq2 := prefix_two _ "AllChaosData" name q hq (atBase_len q hb)
      rw [hq2]
      exact hmem

theorem downloadAndUnzip_dirs (env : DLEnv) (name : String) (fs : FS)
    (hok : envAllOk env = true) (hn : simpleName name)
    (hnotin : ["AllChaosData", name] ∉ fs.dirs) :
    ((downloadAndUnzip env name baseDir fs).fs.dirs.filter atBase)
      = ["AllChaosData", name] :: fs.dirs.filter atBase := by
  obtain ⟨hg, ht, hc, hk, es, ha, hall⟩ := envAllOk_spec env hok
  have hdp := dirPath_segs name hn
  have hb1 : atBase ["AllChaosData"] = false := by decide
  have hb2 : atBase ["AllChaosData", name] = true := rfl
  have hfs1 : ((fs.mkdirAllSegs (pathSegs (goJoin baseDir name))).dirs.filter atBase)
      = ["AllChaosData", name] :: fs.dirs.filter atBase := by
    rw [hdp]
    show (((fs.addDir ["AllChaosData"]).addDir ["AllChaosData", name]).dirs.filter
      atBase) = _
    by_cases hm1 : ["AllChaosData"] ∈ fs.dirs
    · rw [FS.addDir_id fs _ hm1]
      simp [FS.addDir, hnotin, List.filter_cons, hb2]
    · have hne : ["AllChaosData", name] ∉ (fs.addDir ["AllChaosData"]).dirs := by
        simp only [FS.addDir, hm1, if_false]
        intro hcon
        rcases List.mem_cons.mp hcon with hh | hh
        · exact absurd hh (by simp)
        · exact hnotin hh
      simp [FS.addDir, hm1, hne, hnotin, List.filter_cons, hb1, hb2]
  have hmem1 : ["AllChaosData", name]
      ∈ (fs.mkdirAllSegs (pathSegs (goJoin baseDir name))).dirs := by
    rw [hdp]
    refine mkdirAllSegs_mem fs ["AllChaosData", name] _ ?_
    simp only [prefixesOf, List.mem_map, List.mem_range]
    exact ⟨1, by simp, rfl⟩
  have hfilter := unzip_dirs_filter env.wo name hn es hall _ hmem1
  unfold downloadAndUnzip
  simp only [hg, ht, hc, hk, Bool.not_true, Bool.false_eq_true, if_false, ha]
  rcases hu : unzipFile (some es) env.wo (goJoin baseDir name)
      (fs.mkdirAllSegs (pathSegs (goJoin baseDir name))) with ⟨fs2, e⟩
  have hu2 : unzipEntries env.wo (goJoin baseDir name) es
      (fs.mkdirAllSegs (pathSegs (goJoin baseDir name))) = (fs2, e) := hu
  rw [hu2] at hfilter
  cases e <;> simp only [hu] <;> rw [hfilter, hfs1]

theorem foldl_procStep_dirs (fl : Option (Finset String))
    (env : IndexEntry → DLEnv) :
    ∀ (entries : List IndexEntry) (st : ProcState),
      ((entries.filter (entrySelected fl)).map IndexEntry.name).Nodup →
      (∀ e ∈ entries.filter (entrySelected fl), simpleName e.name) →
      (∀ e ∈ entries.filter (entrySelected fl), envAllOk (env e) = true) →
      (∀ e ∈ entries.filter (entrySelected fl),
        ["AllChaosData", e.name] ∉ st.fs.dirs) →
      ((entries.foldl (procStep fl env) st).fs.dirs.filter atBase)
        = ((entries.filter (entrySelected fl)).map
            (fun e => ["AllChaosData", e.name])).reverse
          ++ st.fs.dirs.filter atBase := by
  intro entries
  induction entries with
  | nil => intro st _ _ _ _; simp
  | cons e rest ih =>
    intro st hnd hsimple hok hfresh
    by_cases hsel : entrySelected fl e
    · rw [List.filter_cons_of_pos hsel] at hnd hsimple hok hfresh
      rw [List.foldl_cons, List.filter_cons_of_pos hsel]
      have hstep_fs : (procStep fl env st e).fs
          = (downloadAndUnzip (env e) e.name baseDir st.fs).fs := by
        unfold procStep
        rw [if_pos hsel]
        cases hm : (downloadAndUnzip (env e) e.name baseDir st.fs).err <;>
          simp [hm]
      have hD1 := downloadAndUnzip_dirs (env e) e.name st.fs (hok e (by simp))
        (hsimple e (by simp)) (hfresh e (by simp))
      have hndtail : ((rest.filter (entrySelected fl)).map IndexEntry.name).Nodup :=
        (List.nodup_cons.mp (by simpa using hnd)).2
      have hname_notin : e.name ∉ (rest.filter (entrySelected fl)).map
          IndexEntry.name := (List.nodup_cons.mp (by simpa using hnd)).1
      have hfresh2 : ∀ e2 ∈ rest.filter (entrySelected fl),
          ["AllChaosData", e2.name] ∉ (procStep fl env st e).fs.dirs := by
        intro e2 he2 hmem2
        have hb : atBase ["AllChaosData", e2.name] = true := rfl
        have hin : ["AllChaosData", e2.name]
            ∈ (procStep fl env st e).fs.dirs.filter atBase :=
          List.mem_filter.mpr ⟨hmem2, hb⟩
        rw [hstep_fs, hD1] at hin
        rcases List.mem_cons.mp hin with hh | hh
        · have : e2.name = e.name := by simpa using hh
          exact hname_notin (this ▸ List.mem_map_of_mem IndexEntry.name he2)
        · exact hfresh e2 (by simp [he2]) (List.mem_filter.mp hh).1
      rw [ih (procStep fl env st e) hndtail
        (fun x hx => hsimple x (by simp [hx]))
        (fun x hx => hok x (by simp [hx])) hfresh2]
      rw [hstep_fs, hD1]
      simp [List.append_assoc]
    · rw [List.filter_cons_of_neg hsel] at hnd hsimple hok hfresh
      rw [List.foldl_cons, List.filter_cons_of_neg hsel]
      have hstep : procStep fl env st e = st := by
        unfold procStep
        rw [if_neg hsel]
      rw [hstep]
      exact ih st hnd hsimple hok hfresh

/-- C3: exactly the entries whose lowercased name is in the Selection
Set are processed (with the `nil` filter every entry is); with no
download or extraction failures, exactly one directory per selected
entry is created immediately under the base directory and the completed
count equals the number of selected entries; and for every outcome
environment the reported completed count equals the number of entries
that succeeded. -/
theorem filter_membership_dirs_and_count
    (entries : List IndexEntry) (fl : Option (Finset String))
    (env : IndexEntry → DLEnv) (fs : FS)
    (hnd : ((entries.filter (entrySelected fl)).map IndexEntry.name).Nodup)
    (hsimple : ∀ e ∈ entries.filter (entrySelected fl), simpleName e.name)
    (hok : ∀ e ∈ entries.filter (entrySelected fl), envAllOk (env e) = true)
    (hbase : ∀ d ∈ fs.dirs, atBase d = false) :
    (processURLs entries fl env fs).attempted
        = (entries.filter (entrySelected fl)).map IndexEntry.name ∧
    ((processURLs entries fl env fs).fs.dirs.filter atBase).length
        = (entries.filter (entrySelected fl)).length ∧
    (processURLs entries fl env fs).completed
        = (entries.filter (entrySelected fl)).length ∧
    (∀ (env2 : IndexEntry → DLEnv) (fs2 : FS),
      (processURLs entries fl env2 fs2).completed
        = (entries.filter (entrySelected fl)).countP
            (fun e => (dlErrOf (env2 e)).isNone)) := by
  have hcount : ∀ (env2 : IndexEntry → DLEnv) (fs2 : FS),
      (processURLs entries fl env2 fs2).completed
        = (entries.filter (entrySelected fl)).countP
            (fun e => (dlErrOf (env2 e)).isNone) := by
    intro env2 fs2
    rw [processURLs, foldl_procStep_completed]
    simp
  have hfempty : fs.dirs.filter atBase = [] := by
    rw [List.filter_eq_nil_iff]
    intro d hd
    simp [hbase d hd]
  refine ⟨?_, ?_, ?_, hcount⟩
  · rw [processURLs, foldl_procStep_attempted]
    rfl
  · rw [processURLs, foldl_procStep_dirs fl env entries ⟨fs, [], 0, []⟩ hnd hsimple
      hok ?fresh]
    · rw [hfempty]
      simp
    case fresh =>
      intro e he hmem
      have := hbase _ hmem
      simp [atBase] at this
  · rw [hcount env fs]
    rw [List.countP_eq_length]
    intro e he
    rw [envAllOk_err (env e) (hok e he)]
    rfl

/-- Concrete run of `filter_membership_dirs_and_count`: a three-entry
index filtered to `{tesla, google}` in an environment where every
download and extraction succeeds. -/
theorem filter_membership_dirs_and_count_witness :
    ((([⟨"Tesla", "u1"⟩, ⟨"Google", "u2"⟩, ⟨"Other", "u3"⟩] :
        List IndexEntry).filter
        (entrySelected (some {"tesla", "google"}))).map IndexEntry.name).Nodup ∧
    (processURLs [⟨"Tesla", "u1"⟩, ⟨"Google", "u2"⟩, ⟨"Other", "u3"⟩]
        (some {"tesla", "google"})
        (fun _ => ⟨true, true, true, true, some [⟨"sub/a.txt", false, "x", 420⟩],
          fun _ => .ok⟩) ⟨[["AllChaosData"]], []⟩).attempted
      = (([⟨"Tesla", "u1"⟩, ⟨"Google", "u2"⟩, ⟨"Other", "u3"⟩] :
          List IndexEntry).filter
          (entrySelected (some {"tesla", "google"}))).map IndexEntry.name ∧
    ((processURLs [⟨"Tesla", "u1"⟩, ⟨"Google", "u2"⟩, ⟨"Other", "u3"⟩]
        (some {"tesla", "google"})
        (fun _ => ⟨true, true, true, true, some [⟨"sub/a.txt", false, "x", 420⟩],
          fun _ => .ok⟩) ⟨[["AllChaosData"]], []⟩).fs.dirs.filter atBase).length
      = (([⟨"Tesla", "u1"⟩, ⟨"Google", "u2"⟩, ⟨"Other", "u3"⟩] :
          List IndexEntry).filter
          (entrySelected (some {"tesla", "google"}))).length ∧
    (processURLs [⟨"Tesla", "u1"⟩, ⟨"Google", "u2"⟩, ⟨"Other", "u3"⟩]
        (some {"tesla", "google"})
        (fun _ => ⟨true, true, true, true, some [⟨"sub/a.txt", false, "x", 420⟩],
          fun _ => .ok⟩) ⟨[["AllChaosData"]], []⟩).completed
      = (([⟨"Tesla", "u1"⟩, ⟨"Google", "u2"⟩, ⟨"Other", "u3"⟩] :
          List IndexEntry).filter
          (entrySelected (some {"tesla", "google"}))).length := by
  have h := filter_membership_dirs_and_count
    [⟨"Tesla", "u1"⟩, ⟨"Google", "u2"⟩, ⟨"Other", "u3"⟩]
    (some {"tesla", "google"})
    (fun _ => ⟨true, true, true, true, some [⟨"sub/a.txt", false, "x", 420⟩],
      fun _ => .ok⟩) ⟨[["AllChaosData"]], []⟩
    (by decide) (by decide) (by decide) (by decide)
  exact ⟨by decide, h.1, h.2.1, h.2.2.1⟩

end Chaos
